import Mathlib

/-!
Shallow embedding of the GraphEngine computational-graph library
(`src/main.rs` and `src/tests.rs`).

Modelling conventions:
* `NodeId(usize)` becomes `Nat`.
* `u32` values become `Nat`; `wrapping_add` / `wrapping_mul` reduce
  explicitly modulo `2 ^ 32`.
* `HashMap<NodeId, Node>` becomes a `List Node` in insertion order, looked
  up by `find?` on the id field (ids are unique by construction, so the
  first match is the entry).
* The iteration order of the Rust `HashMap` is arbitrary.  `fill_nodes`
  therefore takes an explicit parameter `ko`, the order in which the map
  enumerates its keys.  Rust uses that enumeration twice: once to seed the
  worklist (`self.nodes.keys()`), and once per successful computation to
  scan for dependents (`self.nodes.iter()`); the key set never changes
  during the call, so both enumerations follow the same order `ko`.
* `Vec::pop` removes from the back, so the initial worklist is
  `ko.reverse` with the list head acting as the top of the stack; a push
  is `cons`.
* The `while` loop is written with explicit fuel; `loopMeasure` bounds the
  number of iterations and is proved sufficient below, so the fuelled
  function computes exactly what the Rust loop computes.
-/

abbrev NodeId := Nat

/-- Mirrors `enum Op`: `Const(u32)`, `Add(NodeId, NodeId)`,
`Mul(NodeId, NodeId)`, `Hint(Vec<NodeId>, HintFn)`; the hint function
`fn(&[u32]) -> u32` is embedded as `List Nat → Nat`. -/
inductive Op where
  | Const : Nat → Op
  | Add : NodeId → NodeId → Op
  | Mul : NodeId → NodeId → Op
  | Hint : List NodeId → (List Nat → Nat) → Op

/-- Mirrors `struct Node { id, value: Option<u32>, op: Option<Op> }`. -/
structure Node where
  id : NodeId
  value : Option Nat
  op : Option Op

/-- `u32::wrapping_add`. -/
def wrapping_add (x y : Nat) : Nat := (x + y) % 2 ^ 32

/-- `u32::wrapping_mul`. -/
def wrapping_mul (x y : Nat) : Nat := (x * y) % 2 ^ 32

/-- `self.nodes.get(&id)`. -/
def lookupNode (nodes : List Node) (i : NodeId) : Option Node :=
  nodes.find? (fun n => n.id == i)

/-- `self.nodes.get(&id).and_then(|n| n.value)`. -/
def getValue (nodes : List Node) (i : NodeId) : Option Nat :=
  (lookupNode nodes i).bind (fun n => n.value)

/-- `self.nodes.get_mut(&id)` followed by `node.value = Some(v)`; when the
id is absent the map is unchanged (the Rust code is guarded by
`if let Some(node) = ...`). -/
def setValue : List Node → NodeId → Nat → List Node
  | [], _, _ => []
  | n :: ns, i, v =>
    if n.id == i then { n with value := some v } :: ns
    else n :: setValue ns i v

/-- The operand-collection loop of the `Op::Hint` arm of `fill_nodes`:
gather every parent's value in declared order, `none` as soon as one is
missing. -/
def collectVals (nodes : List Node) : List NodeId → Option (List Nat)
  | [] => some []
  | p :: ps =>
    match getValue nodes p with
    | some v => (collectVals nodes ps).map (fun vs => v :: vs)
    | none => none

/-- The `match op { ... }` computing `new_val` in `fill_nodes`
(lines 165-202 of `main.rs`). -/
def evalOp (nodes : List Node) : Option Op → Option Nat
  | some (Op.Const v) => some v
  | some (Op.Add a b) =>
    match getValue nodes a, getValue nodes b with
    | some x, some y => some (wrapping_add x y)
    | _, _ => none
  | some (Op.Mul a b) =>
    match getValue nodes a, getValue nodes b with
    | some x, some y => some (wrapping_mul x y)
    | _, _ => none
  | some (Op.Hint ps f) => (collectVals nodes ps).map f
  | none => none

/-- The `is_dependent` test of the dependent scan (lines 211-224): does
this operation list `i` as an operand? -/
def opDependsOn (op : Option Op) (i : NodeId) : Bool :=
  match op with
  | some (Op.Add a b) => a == i || b == i
  | some (Op.Mul a b) => a == i || b == i
  | some (Op.Hint ps _) => ps.any (fun p => p == i)
  | _ => false

/-- The dependent scan `for (other_id, other_node) in self.nodes.iter()`:
enumerate keys in map order `ko` and keep those whose node's operation
lists `i` as an operand. -/
def dependents (ko : List NodeId) (nodes : List Node) (i : NodeId) : List NodeId :=
  ko.filter (fun k =>
    match lookupNode nodes k with
    | some n => opDependsOn n.op i
    | none => false)

/-- `maybe_node.and_then(|n| n.op.as_ref())` (line 163). -/
def getOp (nodes : List Node) (i : NodeId) : Option Op :=
  (lookupNode nodes i).bind (fun n => n.op)

/-- The `while let Some(id) = worklist.pop()` loop of `fill_nodes`
(lines 149-233), with explicit fuel.  Returns the final node map together
with whatever worklist remains when fuel runs out (`[]` whenever the fuel
is at least `loopMeasure`, proved below).  The branches mirror the Rust
loop body: skip if visited; skip (without marking visited) if the id is
not in the map; mark visited and skip if the node already holds a value;
otherwise attempt `evalOp` on the node's operation, and on success store
the value and push every dependent.  Pushed dependents are consed in
reverse scan order so that the head of the list is the last pushed key,
exactly matching `Vec` push/pop at the back. -/
def fillLoop (ko : List NodeId) :
    Nat → List Node → List NodeId → List NodeId → List Node × List NodeId
  | 0, nodes, wl, _ => (nodes, wl)
  | _ + 1, nodes, [], _ => (nodes, [])
  | fuel + 1, nodes, i :: rest, visited =>
    if visited.contains i then fillLoop ko fuel nodes rest visited
    else if (lookupNode nodes i).isNone then fillLoop ko fuel nodes rest visited
    else if (getValue nodes i).isSome then fillLoop ko fuel nodes rest (i :: visited)
    else
      match evalOp nodes (getOp nodes i) with
      | some v =>
        fillLoop ko fuel (setValue nodes i v)
          ((dependents ko (setValue nodes i v) i).reverse ++ rest) (i :: visited)
      | none => fillLoop ko fuel nodes rest (i :: visited)

/-- Number of nodes whose value is still absent. -/
def unvaluedCount (nodes : List Node) : Nat :=
  (nodes.filter (fun n => n.value.isNone)).length

/-- Bound on the number of loop iterations: each iteration either just
pops (worklist shrinks by one) or resolves a node (one fewer unvalued
node, at most `ko.length` dependents pushed). -/
def loopMeasure (ko : List NodeId) (nodes : List Node) (wl : List NodeId) : Nat :=
  wl.length + unvaluedCount nodes * (ko.length + 1)

/-- The input-assignment prologue of `fill_nodes` (lines 140-144): write
each supplied value into the node carrying that id, skipping ids that are
not in the map. -/
def applyInputs (nodes : List Node) (inputs : List (NodeId × Nat)) : List Node :=
  inputs.foldl (fun ns p => setValue ns p.1 p.2) nodes

/-- Mirrors `struct Builder { next_id, nodes, constraints }`. -/
structure Builder where
  next_id : Nat
  nodes : List Node
  constraints : List (NodeId × NodeId)

/-- `Builder::new()`. -/
def Builder.new : Builder := { next_id := 0, nodes := [], constraints := [] }

/-- `Builder::new_node`: allocate the next id, insert a fresh valueless
node, return it (Rust mutates `self` and returns the node; here the pair
is returned). -/
def Builder.new_node (b : Builder) (op : Option Op) : Node × Builder :=
  let node : Node := { id := b.next_id, value := none, op := op }
  (node, { b with next_id := b.next_id + 1, nodes := b.nodes ++ [node] })

/-- `Builder::init`. -/
def Builder.init (b : Builder) : Node × Builder := b.new_node none

/-- `Builder::constant`. -/
def Builder.constant (b : Builder) (v : Nat) : Node × Builder :=
  b.new_node (some (Op.Const v))

/-- `Builder::add`. -/
def Builder.add (b : Builder) (x y : Node) : Node × Builder :=
  b.new_node (some (Op.Add x.id y.id))

/-- `Builder::mul`. -/
def Builder.mul (b : Builder) (x y : Node) : Node × Builder :=
  b.new_node (some (Op.Mul x.id y.id))

/-- `Builder::hint`. -/
def Builder.hint (b : Builder) (parents : List Node) (f : List Nat → Nat) :
    Node × Builder :=
  b.new_node (some (Op.Hint (parents.map (fun n => n.id)) f))

/-- `Builder::assert_equal`. -/
def Builder.assert_equal (b : Builder) (x y : Node) : Builder :=
  { b with constraints := b.constraints ++ [(x.id, y.id)] }

/-- `Builder::fill_nodes`, parameterised by the map's key-enumeration
order `ko`: assign the inputs, seed the worklist with every key
(`Vec::pop` takes from the back, hence `ko.reverse` with head = top), and
run the worklist loop to completion. -/
def Builder.fill_nodes (b : Builder) (inputs : List (NodeId × Nat))
    (ko : List NodeId) : Builder :=
  let ns := applyInputs b.nodes inputs
  let wl := ko.reverse
  { b with nodes := (fillLoop ko (loopMeasure ko ns wl) ns wl []).1 }

/-- `Builder::check_constraints` (lines 238-252): a running flag starts
`true` and is forced to `false` by every pair whose two values differ as
`Option`s. -/
def Builder.check_constraints (b : Builder) : Bool :=
  b.constraints.foldl
    (fun ok c => if getValue b.nodes c.1 = getValue b.nodes c.2 then ok else false)
    true

/-- The graph built by `main` (lines 292-298): `x` input (id 0),
`x_squared = x*x` (id 1), constant 8 (id 2), `x_squared_plus_x` (id 3),
`y = x_squared_plus_x + 8` (id 4). -/
def demoBuilder : Builder :=
  let r0 := Builder.new.init
  let r1 := r0.2.mul r0.1 r0.1
  let r2 := r1.2.constant 8
  let r3 := r2.2.add r1.1 r0.1
  let r4 := r3.2.add r3.1 r2.1
  r4.2

/-- A three-node graph: input (id 0), constant 5 (id 1),
`add(id 0, id 1)` (id 2). -/
def chainBuilder : Builder :=
  let r0 := Builder.new.init
  let r1 := r0.2.constant 5
  let r2 := r1.2.add r0.1 r1.1
  r2.2

/-- The graph of `test_hint_division` (`tests.rs` lines 19-34): `a` input
(id 0), constant 1 (id 1), `b = a + 1` (id 2), `c = hint(b, v / 8)`
(id 3), constant 8 (id 4), `c_times_8 = c * 8` (id 5), constraint
`b == c_times_8`. -/
def hintBuilder : Builder :=
  let ra := Builder.new.init
  let r1 := ra.2.constant 1
  let rb := r1.2.add ra.1 r1.1
  let rc := rb.2.hint [rb.1] (fun vs => vs.headD 0 / 8)
  let r8 := rc.2.constant 8
  let rm := r8.2.mul rc.1 r8.1
  rm.2.assert_equal rb.1 rm.1

/-- A graph with two inputs (ids 0, 1) and their product (id 2), used for
the wraparound check. -/
def mulBuilder : Builder :=
  let r0 := Builder.new.init
  let r1 := r0.2.init
  let r2 := r1.2.mul r0.1 r1.1
  r2.2

/-- C1: the claim says that when a node's value is computed, every node
listing it as an operand is re-attempted and resolves, even if already
processed and found not-yet-ready.  The code refutes this: with key order
`[0, 1, 2]` the add node (id 2) is popped first and fails (the constant
is still absent), is marked visited, and when the constant (id 1)
resolves and re-enqueues it, the visited check skips it — node 2 ends
with no value although both of its operands hold values. -/
theorem c1_dependent_never_reattempted :
    getValue ((chainBuilder.fill_nodes [(0, 3)] [0, 1, 2]).nodes) 2 = none ∧
    getValue ((chainBuilder.fill_nodes [(0, 3)] [0, 1, 2]).nodes) 0 = some 3 ∧
    getValue ((chainBuilder.fill_nodes [(0, 3)] [0, 1, 2]).nodes) 1 = some 5 := by
  decide

/-- C2: the claim says any processing order reaches the same fixpoint.
The code refutes this: on the same graph and inputs, key order
`[2, 1, 0]` resolves the add node to `3 + 5 = 8`, while key order
`[0, 1, 2]` leaves it with no value. -/
theorem c2_not_order_independent :
    getValue ((chainBuilder.fill_nodes [(0, 3)] [2, 1, 0]).nodes) 2 = some 8 ∧
    getValue ((chainBuilder.fill_nodes [(0, 3)] [0, 1, 2]).nodes) 2 = none := by
  decide

/-- All ways of inserting `x` into one position of the list. -/
def insertions (x : α) : List α → List (List α)
  | [] => [[x]]
  | y :: ys => (x :: y :: ys) :: (insertions x ys).map (fun l => y :: l)

/-- Structural enumeration of all permutations of a list (the library
`List.permutations` is defined by well-founded recursion and does not
reduce inside `decide`). -/
def allPerms : List α → List (List α)
  | [] => [[]]
  | x :: xs => (allPerms xs).flatMap (insertions x)

theorem mem_insertions_append (x : α) :
    ∀ pre suf : List α, (pre ++ x :: suf) ∈ insertions x (pre ++ suf) := by
  intro pre
  induction pre with
  | nil => intro suf; cases suf <;> simp [insertions]
  | cons y pre ih =>
    intro suf
    simp only [List.cons_append, insertions]
    exact List.mem_cons_of_mem _ (List.mem_map_of_mem (fun l => y :: l) (ih suf))

/-- Completeness: every permutation of `xs` appears in `allPerms xs`. -/
theorem perm_mem_allPerms : ∀ xs ko : List α, ko.Perm xs → ko ∈ allPerms xs := by
  intro xs
  induction xs with
  | nil =>
    intro ko h
    simp [allPerms, h.eq_nil]
  | cons x xs ih =>
    intro ko h
    obtain ⟨pre, suf, rfl⟩ := List.append_of_mem (h.mem_iff.mpr (List.mem_cons_self x xs))
    have h2 : (pre ++ suf).Perm xs :=
      (List.perm_cons x).mp (List.perm_middle.symm.trans h)
    exact List.mem_flatMap.mpr ⟨pre ++ suf, ih _ h2, mem_insertions_append x pre suf⟩

/-- C3: the claim (and the spec's end-to-end scenario) says the demo graph
with `x = 3` ends with `x_sq = 9`, `plus_x = 12`, `y = 20`.  The code
refutes this: for every one of the 120 possible key-enumeration orders,
`y` (id 4) ends with no value — whichever of its two parents resolves
first immediately triggers `y`'s only computation attempt while the other
parent is still absent, and the visited set blocks every later attempt.
Under order `[4, 3, 2, 1, 0]` the intermediate nodes do reach 9 and 12,
yet `y` is still absent. -/
theorem c3_demo_y_never_resolves :
    (∀ ko : List NodeId, ko.Perm [0, 1, 2, 3, 4] →
      getValue ((demoBuilder.fill_nodes [(0, 3)] ko).nodes) 4 = none) ∧
    getValue ((demoBuilder.fill_nodes [(0, 3)] [4, 3, 2, 1, 0]).nodes) 1 = some 9 ∧
    getValue ((demoBuilder.fill_nodes [(0, 3)] [4, 3, 2, 1, 0]).nodes) 3 = some 12 ∧
    getValue ((demoBuilder.fill_nodes [(0, 3)] [4, 3, 2, 1, 0]).nodes) 4 = none := by
  refine ⟨?_, by decide, by decide, by decide⟩
  intro ko hko
  have hall : ((allPerms [0, 1, 2, 3, 4]).all (fun l =>
      getValue ((demoBuilder.fill_nodes [(0, 3)] l).nodes) 4 == none)) = true := by
    decide
  have hmem := perm_mem_allPerms _ ko hko
  simpa using List.all_eq_true.mp hall ko hmem

/-- C3 witness: the theorem applied at the creation-order enumeration. -/
theorem c3_demo_y_never_resolves_witness :
    getValue ((demoBuilder.fill_nodes [(0, 3)] [0, 1, 2, 3, 4]).nodes) 4 = none :=
  c3_demo_y_never_resolves.1 [0, 1, 2, 3, 4] (List.Perm.refl _)

/-- C6: the claim says that with `b = 8` (a multiple of 8, inputs
`a = 7`) the hint/constraint graph passes `check_constraints`.  The code
refutes this: under key order `[5, 4, 3, 2, 0, 1]` the chain resolves
`b = 8` and `c = 8 / 8 = 1`, but `c_times_8` (id 5) is attempted exactly
once — right after `c` resolves, while the constant 8 (id 4) is still
absent — so it stays valueless and the constraint compares `some 8`
against `none`, returning `false`. -/
theorem c6_hint_constraint_check_fails :
    getValue ((hintBuilder.fill_nodes [(0, 7)] [5, 4, 3, 2, 0, 1]).nodes) 2 = some 8 ∧
    getValue ((hintBuilder.fill_nodes [(0, 7)] [5, 4, 3, 2, 0, 1]).nodes) 3 = some 1 ∧
    getValue ((hintBuilder.fill_nodes [(0, 7)] [5, 4, 3, 2, 0, 1]).nodes) 5 = none ∧
    (hintBuilder.fill_nodes [(0, 7)] [5, 4, 3, 2, 0, 1]).check_constraints = false := by
  decide

theorem foldl_check_flag (nodes : List Node) :
    ∀ (cs : List (NodeId × NodeId)) (ok : Bool),
      (cs.foldl
        (fun ok c => if getValue nodes c.1 = getValue nodes c.2 then ok else false)
        ok) = true ↔
      (ok = true ∧ ∀ c ∈ cs, getValue nodes c.1 = getValue nodes c.2) := by
  intro cs
  induction cs with
  | nil => intro ok; simp
  | cons c cs ih =>
    intro ok
    by_cases h : getValue nodes c.1 = getValue nodes c.2
    · simp only [List.foldl_cons, if_pos h, ih ok, List.forall_mem_cons]
      tauto
    · simp only [List.foldl_cons, if_neg h, ih false, List.forall_mem_cons]
      tauto

/-- C4: `check_constraints` returns `true` iff for every recorded pair the
two nodes' final optional values are equal as `Option`s (so `none = none`
holds and `none ≠ some v`), and the graph state is untouched — in this
embedding `check_constraints` is a plain function of the builder that
returns only a `Bool`, mirroring the `&self` receiver. -/
theorem c4_check_constraints_iff (b : Builder) :
    b.check_constraints = true ↔
      ∀ c ∈ b.constraints, getValue b.nodes c.1 = getValue b.nodes c.2 := by
  unfold Builder.check_constraints
  rw [foldl_check_flag]
  simp

/-- C5: an `Add` node whose operands hold `x` and `y` computes
`(x + y) % 2 ^ 32`, a `Mul` node computes `(x * y) % 2 ^ 32` (silent
wraparound, no error path exists), and in particular a full `fill_nodes`
run multiplying `2 ^ 31` by `2` yields `0`. -/
theorem c5_wraparound_semantics (nodes : List Node) (a b x y : Nat)
    (ha : getValue nodes a = some x) (hb : getValue nodes b = some y) :
    evalOp nodes (some (Op.Add a b)) = some ((x + y) % 2 ^ 32) ∧
    evalOp nodes (some (Op.Mul a b)) = some ((x * y) % 2 ^ 32) ∧
    getValue ((mulBuilder.fill_nodes [(0, 2 ^ 31), (1, 2)] [2, 0, 1]).nodes) 2 =
      some 0 := by
  refine ⟨?_, ?_, by decide⟩
  · simp [evalOp, ha, hb, wrapping_add]
  · simp [evalOp, ha, hb, wrapping_mul]

/-- A concrete two-node store used to instantiate C5. -/
def twoValuedNodes : List Node :=
  [{ id := 0, value := some 7, op := none }, { id := 1, value := some 9, op := none }]

/-- C5 witness: the theorem applied to two concrete valued nodes. -/
theorem c5_wraparound_semantics_witness :
    getValue twoValuedNodes 0 = some 7 ∧
    getValue twoValuedNodes 1 = some 9 ∧
    (evalOp twoValuedNodes (some (Op.Add 0 1)) = some ((7 + 9) % 2 ^ 32) ∧
     evalOp twoValuedNodes (some (Op.Mul 0 1)) = some ((7 * 9) % 2 ^ 32) ∧
     getValue ((mulBuilder.fill_nodes [(0, 2 ^ 31), (1, 2)] [2, 0, 1]).nodes) 2 =
       some 0) :=
  ⟨by decide, by decide,
    c5_wraparound_semantics twoValuedNodes 0 1 7 9 (by decide) (by decide)⟩

theorem fillLoop_succ (ko : List NodeId) (fuel : Nat) (nodes : List Node)
    (i : NodeId) (rest visited : List NodeId) :
    fillLoop ko (fuel + 1) nodes (i :: rest) visited =
      if visited.contains i then fillLoop ko fuel nodes rest visited
      else if (lookupNode nodes i).isNone then fillLoop ko fuel nodes rest visited
      else if (getValue nodes i).isSome then fillLoop ko fuel nodes rest (i :: visited)
      else
        match evalOp nodes (getOp nodes i) with
        | some v =>
          fillLoop ko fuel (setValue nodes i v)
            ((dependents ko (setValue nodes i v) i).reverse ++ rest) (i :: visited)
        | none => fillLoop ko fuel nodes rest (i :: visited) := rfl

theorem unvaluedCount_cons (n : Node) (ns : List Node) :
    unvaluedCount (n :: ns) = (if n.value.isNone then 1 else 0) + unvaluedCount ns := by
  by_cases h : n.value.isNone <;>
    simp [unvaluedCount, List.filter_cons, h, Nat.add_comm]

/-- Resolving a node that is present and valueless reduces the number of
valueless nodes by exactly one. -/
theorem unvaluedCount_setValue (i v : NodeId) :
    ∀ (nodes : List Node) (node : Node), lookupNode nodes i = some node →
      node.value = none →
      unvaluedCount nodes = unvaluedCount (setValue nodes i v) + 1 := by
  intro nodes
  induction nodes with
  | nil => intro node h _; simp [lookupNode] at h
  | cons n ns ih =>
    intro node h hval
    by_cases hid : (n.id == i) = true
    · have hn : n = node := by simpa [lookupNode, hid] using h
      subst hn
      rw [setValue, if_pos hid, unvaluedCount_cons, unvaluedCount_cons]
      simp [hval]
      omega
    · have h2 : lookupNode ns i = some node := by
        simpa [lookupNode, hid] using h
      rw [setValue, if_neg hid, unvaluedCount_cons, unvaluedCount_cons]
      have := ih node h2 hval
      omega

theorem dependents_length_le (ko : List NodeId) (nodes : List Node) (i : NodeId) :
    (dependents ko nodes i).length ≤ ko.length :=
  List.length_filter_le _ ko

/-- The worklist loop always drains its worklist within `loopMeasure`
iterations: each iteration either only pops, or resolves a previously
valueless node (which can happen at most once per node) and pushes at
most `ko.length` dependents. -/
theorem fillLoop_empties (ko : List NodeId) :
    ∀ (fuel : Nat) (nodes : List Node) (wl visited : List NodeId),
      loopMeasure ko nodes wl ≤ fuel →
      (fillLoop ko fuel nodes wl visited).2 = [] := by
  intro fuel
  induction fuel with
  | zero =>
    intro nodes wl visited h
    cases wl with
    | nil => rfl
    | cons i rest => simp [loopMeasure] at h
  | succ fuel ih =>
    intro nodes wl visited h
    cases wl with
    | nil => rfl
    | cons i rest =>
      have hm : rest.length + unvaluedCount nodes * (ko.length + 1) ≤ fuel := by
        simp only [loopMeasure, List.length_cons] at h
        omega
      rw [fillLoop_succ]
      by_cases hv : visited.contains i = true
      · rw [if_pos hv]; exact ih nodes rest visited hm
      · rw [if_neg hv]
        by_cases hmiss : (lookupNode nodes i).isNone = true
        · rw [if_pos hmiss]; exact ih nodes rest visited hm
        · rw [if_neg hmiss]
          by_cases hhas : (getValue nodes i).isSome = true
          · rw [if_pos hhas]; exact ih nodes rest _ hm
          · rw [if_neg hhas]
            cases he : evalOp nodes (getOp nodes i) with
            | none => exact ih nodes rest _ hm
            | some v =>
              apply ih
              obtain ⟨node, hlk⟩ : ∃ node, lookupNode nodes i = some node := by
                cases hc : lookupNode nodes i with
                | none => exact absurd (by simp [hc]) hmiss
                | some node => exact ⟨node, rfl⟩
              have hval : node.value = none := by
                have h2 : getValue nodes i = node.value := by simp [getValue, hlk]
                rw [h2] at hhas
                exact Option.not_isSome_iff_eq_none.mp hhas
              have hcount := unvaluedCount_setValue i v nodes node hlk hval
              have hdep := dependents_length_le ko (setValue nodes i v) i
              have hexp : (unvaluedCount (setValue nodes i v) + 1) * (ko.length + 1) =
                  unvaluedCount (setValue nodes i v) * (ko.length + 1) + (ko.length + 1) := by
                ring
              rw [hcount, hexp] at hm
              simp only [loopMeasure, List.length_append, List.length_reverse]
              omega

/-- One call of the construction API, carrying the ids of the
previously-returned handles it consumes (`add(&a, &b)` becomes
`addS a.id b.id`, and so on). -/
inductive Step where
  | initS : Step
  | constS : Nat → Step
  | addS : NodeId → NodeId → Step
  | mulS : NodeId → NodeId → Step
  | hintS : List NodeId → (List Nat → Nat) → Step
  | assertS : NodeId → NodeId → Step

/-- Run one construction call against the builder. -/
def applyStep (b : Builder) : Step → Builder
  | Step.initS => (b.init).2
  | Step.constS v => (b.constant v).2
  | Step.addS i j => (b.new_node (some (Op.Add i j))).2
  | Step.mulS i j => (b.new_node (some (Op.Mul i j))).2
  | Step.hintS ps f => (b.new_node (some (Op.Hint ps f))).2
  | Step.assertS i j => { b with constraints := b.constraints ++ [(i, j)] }

/-- A step is a legitimate API call when every handle it consumes was
previously returned by this builder, i.e. carries an id below the current
counter. -/
def validStep (b : Builder) : Step → Bool
  | Step.initS => true
  | Step.constS _ => true
  | Step.addS i j => decide (i < b.next_id) && decide (j < b.next_id)
  | Step.mulS i j => decide (i < b.next_id) && decide (j < b.next_id)
  | Step.hintS ps _ => ps.all (fun p => decide (p < b.next_id))
  | Step.assertS i j => decide (i < b.next_id) && decide (j < b.next_id)

/-- Run a whole construction sequence. -/
def buildSteps : Builder → List Step → Builder
  | b, [] => b
  | b, s :: ss => buildSteps (applyStep b s) ss

/-- Every step of the sequence is a legitimate API call at its point of
execution. -/
def validSteps : Builder → List Step → Bool
  | _, [] => true
  | b, s :: ss => validStep b s && validSteps (applyStep b s) ss

/-- The construction sequence of `main` (`x`, `x*x`, constant 8,
`x_sq + x`, `plus_x + 8`). -/
def demoSteps : List Step :=
  [Step.initS, Step.mulS 0 0, Step.constS 8, Step.addS 1 0, Step.addS 3 2]

/-- C7: for every graph built through the construction API and every
input assignment and key order, the worklist loop of `fill_nodes`
terminates: running it with the `loopMeasure` fuel budget that
`fill_nodes` allots drains the worklist completely, so the Rust `while`
loop exits after at most `loopMeasure` iterations. -/
theorem c7_fill_nodes_terminates (ss : List Step) (inputs : List (NodeId × Nat))
    (ko : List NodeId) (_h : validSteps Builder.new ss = true) :
    (fillLoop ko
      (loopMeasure ko (applyInputs (buildSteps Builder.new ss).nodes inputs)
        ko.reverse)
      (applyInputs (buildSteps Builder.new ss).nodes inputs) ko.reverse []).2 = [] :=
  fillLoop_empties ko _ _ _ _ (le_refl _)

/-- C7 witness: the demo construction sequence with `x = 3`. -/
theorem c7_fill_nodes_terminates_witness :
    validSteps Builder.new demoSteps = true ∧
    (fillLoop [0, 1, 2, 3, 4]
      (loopMeasure [0, 1, 2, 3, 4]
        (applyInputs (buildSteps Builder.new demoSteps).nodes [(0, 3)])
        [0, 1, 2, 3, 4].reverse)
      (applyInputs (buildSteps Builder.new demoSteps).nodes [(0, 3)])
      [0, 1, 2, 3, 4].reverse []).2 = [] :=
  ⟨by decide, c7_fill_nodes_terminates demoSteps [(0, 3)] [0, 1, 2, 3, 4] (by decide)⟩

/-- The operand ids listed by an operation (empty for constants and for
input nodes). -/
def operandsOf : Option Op → List NodeId
  | some (Op.Const _) => []
  | some (Op.Add a b) => [a, b]
  | some (Op.Mul a b) => [a, b]
  | some (Op.Hint ps _) => ps
  | none => []

/-- The structural invariant of a builder: ids `0 .. next_id - 1` are all
present, every node's id is below the counter, and every operand id is
strictly below the id of the node referencing it. -/
def BuilderInv (b : Builder) : Prop :=
  (∀ k, k < b.next_id → ∃ m ∈ b.nodes, m.id = k) ∧
  (∀ n ∈ b.nodes, n.id < b.next_id) ∧
  (∀ n ∈ b.nodes, ∀ p ∈ operandsOf n.op, p < n.id)

theorem builderInv_new : BuilderInv Builder.new :=
  ⟨fun k hk => absurd hk (Nat.not_lt_zero k),
   fun n hn => absurd hn (List.not_mem_nil n),
   fun n hn => absurd hn (List.not_mem_nil n)⟩

theorem new_node_nodes (b : Builder) (op : Option Op) :
    (b.new_node op).2.nodes =
      b.nodes ++ [{ id := b.next_id, value := none, op := op }] := rfl

theorem new_node_next (b : Builder) (op : Option Op) :
    (b.new_node op).2.next_id = b.next_id + 1 := rfl

theorem builderInv_new_node (b : Builder) (op : Option Op)
    (hop : ∀ p ∈ operandsOf op, p < b.next_id) (h : BuilderInv b) :
    BuilderInv (b.new_node op).2 := by
  obtain ⟨h1, h2, h3⟩ := h
  refine ⟨?_, ?_, ?_⟩
  · intro k hk
    rw [new_node_next] at hk
    rw [new_node_nodes]
    rcases Nat.lt_succ_iff_lt_or_eq.mp hk with hlt | heq
    · obtain ⟨m, hm, hid⟩ := h1 k hlt
      exact ⟨m, List.mem_append_left _ hm, hid⟩
    · exact ⟨{ id := b.next_id, value := none, op := op },
        List.mem_append_right _ (List.mem_singleton_self _), heq.symm⟩
  · intro n hn
    rw [new_node_next]
    rw [new_node_nodes] at hn
    rcases List.mem_append.mp hn with hL | hR
    · exact Nat.lt_succ_of_lt (h2 n hL)
    · have hne : n = { id := b.next_id, value := none, op := op } := by simpa using hR
      rw [hne]
      exact Nat.lt_succ_self _
  · intro n hn p hp
    rw [new_node_nodes] at hn
    rcases List.mem_append.mp hn with hL | hR
    · exact h3 n hL p hp
    · have hne : n = { id := b.next_id, value := none, op := op } := by simpa using hR
      rw [hne] at hp ⊢
      exact hop p hp

theorem builderInv_applyStep (b : Builder) (s : Step)
    (hs : validStep b s = true) (h : BuilderInv b) :
    BuilderInv (applyStep b s) := by
  cases s with
  | initS => exact builderInv_new_node b none (by simp [operandsOf]) h
  | constS v => exact builderInv_new_node b _ (by simp [operandsOf]) h
  | addS i j =>
    have hb : i < b.next_id ∧ j < b.next_id := by simpa [validStep] using hs
    refine builderInv_new_node b _ ?_ h
    intro p hp
    rcases List.mem_pair.mp hp with rfl | rfl
    · exact hb.1
    · exact hb.2
  | mulS i j =>
    have hb : i < b.next_id ∧ j < b.next_id := by simpa [validStep] using hs
    refine builderInv_new_node b _ ?_ h
    intro p hp
    rcases List.mem_pair.mp hp with rfl | rfl
    · exact hb.1
    · exact hb.2
  | hintS ps f =>
    have hb : ∀ p ∈ ps, p < b.next_id := by simpa [validStep] using hs
    exact builderInv_new_node b _ (by simpa [operandsOf] using hb) h
  | assertS i j => exact h

theorem builderInv_buildSteps :
    ∀ (ss : List Step) (b : Builder), BuilderInv b → validSteps b ss = true →
      BuilderInv (buildSteps b ss) := by
  intro ss
  induction ss with
  | nil => intro b h _; exact h
  | cons s ss ih =>
    intro b h hv
    have h1 : validStep b s = true ∧ validSteps (applyStep b s) ss = true := by
      simpa [validSteps, Bool.and_eq_true] using hv
    exact ih (applyStep b s) (builderInv_applyStep b s h1.1 h) h1.2

/-- C8: after any sequence of construction-API calls starting from
`Builder::new`, every operand id listed by any node's operation is the id
of a node already present in the graph and is strictly smaller than the
referencing node's own id (hence the dependency relation is acyclic); the
invariant is preserved by every builder operation. -/
theorem c8_operands_precede (ss : List Step)
    (h : validSteps Builder.new ss = true) :
    ∀ n ∈ (buildSteps Builder.new ss).nodes, ∀ p ∈ operandsOf n.op,
      p < n.id ∧ ∃ m ∈ (buildSteps Builder.new ss).nodes, m.id = p := by
  obtain ⟨h1, h2, h3⟩ := builderInv_buildSteps ss Builder.new builderInv_new h
  intro n hn p hp
  exact ⟨h3 n hn p hp, h1 p (lt_trans (h3 n hn p hp) (h2 n hn))⟩

/-- C8 witness: the demo construction sequence. -/
theorem c8_operands_precede_witness :
    validSteps Builder.new demoSteps = true ∧
    (∀ n ∈ (buildSteps Builder.new demoSteps).nodes, ∀ p ∈ operandsOf n.op,
      p < n.id ∧ ∃ m ∈ (buildSteps Builder.new demoSteps).nodes, m.id = p) :=
  ⟨by decide, c8_operands_precede demoSteps (by decide)⟩

/-- Writing a value at id `i` does not change the value read at any other
id `j` (the updated entry keeps its id, so the first-match lookup for `j`
is unaffected). -/
theorem getValue_setValue_ne (i j : NodeId) (w : Nat) (hne : i ≠ j) :
    ∀ nodes, getValue (setValue nodes i w) j = getValue nodes j := by
  intro nodes
  induction nodes with
  | nil => rfl
  | cons n ns ih =>
    by_cases hid : (n.id == i) = true
    · rw [setValue, if_pos hid]
      have hnj : (n.id == j) = false := by
        have hni : n.id = i := by simpa using hid
        simp only [hni, beq_eq_false_iff_ne]
        exact hne
      simp [getValue, lookupNode, hnj]
    · rw [setValue, if_neg hid]
      by_cases hnj : (n.id == j) = true
      · simp [getValue, lookupNode, hnj]
      · have hnjf : (n.id == j) = false := by simpa using hnj
        simpa [getValue, lookupNode, hnjf] using ih

/-- Writing a value at a present id makes that id read back the written
value. -/
theorem getValue_setValue_self (i : NodeId) (w : Nat) :
    ∀ nodes, (lookupNode nodes i).isSome = true →
      getValue (setValue nodes i w) i = some w := by
  intro nodes
  induction nodes with
  | nil => intro h; simp [lookupNode] at h
  | cons n ns ih =>
    intro h
    by_cases hid : (n.id == i) = true
    · rw [setValue, if_pos hid]
      simp [getValue, lookupNode, hid]
    · rw [setValue, if_neg hid]
      have h2 : (lookupNode ns i).isSome = true := by simpa [lookupNode, hid] using h
      have hidf : (n.id == i) = false := by simpa using hid
      simpa [getValue, lookupNode, hidf] using ih h2

/-- Writing a value never adds or removes map entries. -/
theorem lookupNode_setValue_isSome (a : NodeId) (w : Nat) (i : NodeId) :
    ∀ nodes, (lookupNode (setValue nodes a w) i).isSome =
      (lookupNode nodes i).isSome := by
  intro nodes
  induction nodes with
  | nil => rfl
  | cons n ns ih =>
    by_cases hid : (n.id == a) = true
    · rw [setValue, if_pos hid]
      by_cases hij : (n.id == i) = true <;> simp [lookupNode, hij]
    · rw [setValue, if_neg hid]
      by_cases hij : (n.id == i) = true
      · simp [lookupNode, hij]
      · have hijf : (n.id == i) = false := by simpa using hij
        simpa [lookupNode, hijf] using ih

/-- A value that is already present survives the whole worklist loop: the
loop only writes to nodes whose value is still absent. -/
theorem fillLoop_preserves (ko : List NodeId) :
    ∀ (fuel : Nat) (nodes : List Node) (wl visited : List NodeId) (j : NodeId) (v : Nat),
      getValue nodes j = some v →
      getValue (fillLoop ko fuel nodes wl visited).1 j = some v := by
  intro fuel
  induction fuel with
  | zero => intro nodes wl visited j v h; exact h
  | succ fuel ih =>
    intro nodes wl visited j v h
    cases wl with
    | nil => exact h
    | cons i rest =>
      rw [fillLoop_succ]
      by_cases hv : visited.contains i = true
      · rw [if_pos hv]; exact ih _ _ _ _ _ h
      · rw [if_neg hv]
        by_cases hmiss : (lookupNode nodes i).isNone = true
        · rw [if_pos hmiss]; exact ih _ _ _ _ _ h
        · rw [if_neg hmiss]
          by_cases hhas : (getValue nodes i).isSome = true
          · rw [if_pos hhas]; exact ih _ _ _ _ _ h
          · rw [if_neg hhas]
            cases he : evalOp nodes (getOp nodes i) with
            | none => exact ih _ _ _ _ _ h
            | some w =>
              apply ih
              have hne : i ≠ j := by
                intro heq
                rw [heq, h] at hhas
                simp at hhas
              rw [getValue_setValue_ne i j w hne nodes]
              exact h

theorem applyInputs_cons (nodes : List Node) (q : NodeId × Nat)
    (qs : List (NodeId × Nat)) :
    applyInputs nodes (q :: qs) = applyInputs (setValue nodes q.1 q.2) qs := rfl

/-- Assignments whose key differs from `j` never change the value at `j`. -/
theorem applyInputs_other_keys (j : NodeId) (v : Nat) :
    ∀ (inputs : List (NodeId × Nat)) (nodes : List Node),
      (∀ p ∈ inputs, p.1 ≠ j) → getValue nodes j = some v →
      getValue (applyInputs nodes inputs) j = some v := by
  intro inputs
  induction inputs with
  | nil => intro nodes _ h; exact h
  | cons q qs ih =>
    intro nodes hkeys h
    rw [applyInputs_cons]
    apply ih _ (fun p hp => hkeys p (List.mem_cons_of_mem _ hp))
    rw [getValue_setValue_ne q.1 j q.2 (hkeys q (List.mem_cons_self _ _)) nodes]
    exact h

/-- The input prologue writes each (unique-key) supplied pair into the
node carrying that id. -/
theorem applyInputs_sets (j : NodeId) (v : Nat) :
    ∀ (inputs : List (NodeId × Nat)) (nodes : List Node),
      (inputs.map Prod.fst).Nodup → (j, v) ∈ inputs →
      (lookupNode nodes j).isSome = true →
      getValue (applyInputs nodes inputs) j = some v := by
  intro inputs
  induction inputs with
  | nil => intro nodes _ hmem _; simp at hmem
  | cons q qs ih =>
    intro nodes hnd hmem hsome
    simp only [List.map_cons, List.nodup_cons] at hnd
    rw [applyInputs_cons]
    rcases List.mem_cons.mp hmem with heq | hmem2
    · obtain rfl : q = (j, v) := heq.symm
      apply applyInputs_other_keys j v qs _ ?_
      · exact getValue_setValue_self j v nodes hsome
      · intro p hp hpj
        have hmap : p.1 ∈ qs.map Prod.fst := List.mem_map_of_mem Prod.fst hp
        rw [hpj] at hmap
        exact hnd.1 hmap
    · apply ih (setValue nodes q.1 q.2) hnd.2 hmem2
      rw [lookupNode_setValue_isSome]
      exact hsome

/-- C9: `fill_nodes` writes every supplied (id, value) pair into whichever
node carries that id — there is no check that the target is an input
node — and a node holding a value is never recomputed during the run, so
the supplied value overrides the node's operation in the final state. -/
theorem c9_inputs_override (b : Builder) (inputs : List (NodeId × Nat))
    (ko : List NodeId) (j : NodeId) (v : Nat)
    (hnd : (inputs.map Prod.fst).Nodup) (hmem : (j, v) ∈ inputs)
    (hsome : (lookupNode b.nodes j).isSome = true) :
    getValue (b.fill_nodes inputs ko).nodes j = some v :=
  fillLoop_preserves ko _ _ _ _ j v
    (applyInputs_sets j v inputs b.nodes hnd hmem hsome)

/-- C9 witness: overriding the constant-5 node (id 1) of the three-node
graph with the value 7. -/
theorem c9_inputs_override_witness :
    ([(1, 7)].map (Prod.fst (α := NodeId) (β := Nat))).Nodup ∧
    ((1 : NodeId), (7 : Nat)) ∈ [((1 : NodeId), (7 : Nat))] ∧
    (lookupNode chainBuilder.nodes 1).isSome = true ∧
    getValue (chainBuilder.fill_nodes [(1, 7)] [0, 1, 2]).nodes 1 = some 7 :=
  ⟨by decide, by decide, by decide,
    c9_inputs_override chainBuilder [(1, 7)] [0, 1, 2] 1 7 (by decide) (by decide)
      (by decide)⟩

/-- An id that is not in the map makes `setValue` a no-op. -/
theorem setValue_absent (i : NodeId) (v : Nat) :
    ∀ nodes, (lookupNode nodes i).isNone = true → setValue nodes i v = nodes := by
  intro nodes
  induction nodes with
  | nil => intro _; rfl
  | cons n ns ih =>
    intro h
    by_cases hid : (n.id == i) = true
    · exfalso; simp [lookupNode, hid] at h
    · rw [setValue, if_neg hid, ih (by simpa [lookupNode, hid] using h)]

/-- C10: an inputs entry whose id is not in the graph is silently
ignored: `fill_nodes` called with that entry present returns exactly the
builder it returns without it (so no node's value changes on its
account, and no failure occurs). -/
theorem c10_unknown_input_ignored (b : Builder) (i : NodeId) (v : Nat)
    (rest : List (NodeId × Nat)) (ko : List NodeId)
    (h : (lookupNode b.nodes i).isNone = true) :
    b.fill_nodes ((i, v) :: rest) ko = b.fill_nodes rest ko := by
  simp only [Builder.fill_nodes, applyInputs_cons, setValue_absent i v b.nodes h]

/-- C10 witness: a nonexistent id 99 supplied to the three-node graph. -/
theorem c10_unknown_input_ignored_witness :
    (lookupNode chainBuilder.nodes 99).isNone = true ∧
    chainBuilder.fill_nodes [(99, 5)] [0, 1, 2] =
      chainBuilder.fill_nodes [] [0, 1, 2] :=
  ⟨by decide,
    c10_unknown_input_ignored chainBuilder 99 5 [] [0, 1, 2] (by decide)⟩
